import Mathlib

/-!
Verification development for the `protonup-cachyos` installer (`src/main.rs`).

The program is modelled by a shallow embedding:

* a filesystem is a list of entries, each an absolute path (a list of
  name components) together with a directory flag;
* the filesystem operations used by the program (`create_dir_all`,
  `remove_dir_all`, `rename`, `read_dir`, existence tests) are explicit
  state transformers on that representation;
* the pure string computations of the program (CPU-flag detection, asset
  selection by URL suffix, install-name derivation) are translated
  function by function;
* the end-to-end `main` is the function `runMain`, parameterised by an
  environment record carrying the effective uid, the `HOME` value, the
  contents of `/proc/cpuinfo`, the temp-directory base, and oracles for
  the network fetches, the archive extraction, the final rename and the
  per-path success of each ignored `remove_dir_all` (the scratch removal
  and the best-effort prune removals).  It returns
  the exit code, the final filesystem and a trace of network/filesystem
  events in program order.
-/

/-- A filesystem path, as its list of name components. -/
abbrev FsPath := List String

/-- One existing filesystem node: its absolute path and whether it is a
directory. -/
structure FsEntry where
  path : FsPath
  isDir : Bool
deriving DecidableEq, Repr

/-- A filesystem state: the list of existing nodes, in creation order. -/
abbrev Fs := List FsEntry

/-- Existence test for a path (`Path::exists`). -/
def pathExists (fs : Fs) (p : FsPath) : Bool :=
  fs.any (fun e => e.path == p)

/-- All nonempty prefixes of a path, shortest first; these are the nodes
`fs::create_dir_all` guarantees to exist afterwards. -/
def pathAncestors (p : FsPath) : List FsPath :=
  (List.range p.length).map (fun i => p.take (i + 1))

/-- `fs::create_dir_all`: create the path and any missing ancestor, as
directories; creating an already-existing directory is not an error. -/
def createDirAll (fs : Fs) (p : FsPath) : Fs :=
  fs ++ ((pathAncestors p).filter (fun q => !(pathExists fs q))).map
    (fun q => ⟨q, true⟩)

/-- `fs::remove_dir_all`: remove the path and everything below it. -/
def removeDirAll (fs : Fs) (p : FsPath) : Fs :=
  fs.filter (fun e => !(p.isPrefixOf e.path))

/-- `fs::rename src dst`: every node under `src` moves under `dst`. -/
def renameFs (fs : Fs) (src dst : FsPath) : Fs :=
  fs.map (fun e =>
    if src.isPrefixOf e.path then ⟨dst ++ e.path.drop src.length, e.isDir⟩
    else e)

/-- `fs::read_dir`: the immediate children of `p`, in filesystem order. -/
def readDir (fs : Fs) (p : FsPath) : List FsEntry :=
  fs.filter (fun e => e.path.length == p.length + 1 && p.isPrefixOf e.path)

/-- A filesystem is ancestor-closed when every nonempty prefix of an
existing node's path also exists (true of any real filesystem tree). -/
def ancestorClosed (fs : Fs) : Bool :=
  fs.all (fun e =>
    (List.range e.path.length).all (fun i => pathExists fs (e.path.take (i + 1))))

/-- Substring test on character lists (Rust `str::contains`). -/
def containsSub (pat : List Char) : List Char → Bool
  | [] => pat.isEmpty
  | c :: cs => pat.isPrefixOf (c :: cs) || containsSub pat cs

/-- Rust `str::starts_with`. -/
def strStartsWith (pre s : String) : Bool :=
  pre.data.isPrefixOf s.data

/-- Rust `str::ends_with`. -/
def strEndsWith (suf s : String) : Bool :=
  suf.data.isSuffixOf s.data

/-- A line of `/proc/cpuinfo` that carries the feature flags:
`l.starts_with("flags")` in the source. -/
def isFlagsLine (l : String) : Bool :=
  strStartsWith "flags" l

/-- The joint feature test of `detect_arch`:
`f.contains("avx2") && f.contains("bmi1") && f.contains("bmi2") && f.contains("fma")`. -/
def hasV3Flags (f : String) : Bool :=
  containsSub "avx2".data f.data && containsSub "bmi1".data f.data &&
  containsSub "bmi2".data f.data && containsSub "fma".data f.data

/-- `detect_arch` from the source.  The input is the content of
`/proc/cpuinfo` as its list of lines, or `none` when the file is absent
or unreadable.  The source scans `flags.lines().find(...)`: only the
first line starting with `"flags"` is inspected. -/
def detect_arch (cpuinfo : Option (List String)) : String :=
  match cpuinfo with
  | some lines =>
    match lines.find? isFlagsLine with
    | some f => if hasV3Flags f then "x86_64_v3" else "x86_64"
    | none => "x86_64"
  | none => "x86_64"

/-- One release asset of the GitHub metadata document. -/
structure ReleaseAsset where
  browser_download_url : String
deriving DecidableEq, Repr

/-- The release metadata document. -/
structure Release where
  tag_name : String
  assets : List ReleaseAsset
deriving DecidableEq, Repr

/-- The selection predicate of the source:
`a.browser_download_url.ends_with(format!("{arch}.tar.xz"))`. -/
def assetMatches (arch : String) (a : ReleaseAsset) : Bool :=
  strEndsWith (arch ++ ".tar.xz") a.browser_download_url

/-- Asset resolution: the first asset in feed order whose download URL
ends with `"<arch>.tar.xz"`; `none` models the
`"No matching asset found"` error. -/
def findAsset (assets : List ReleaseAsset) (arch : String) : Option ReleaseAsset :=
  assets.find? (assetMatches arch)

/-- Rust `str::split('/')`, on character lists. -/
def splitOnChar (c : Char) : List Char → List (List Char)
  | [] => [[]]
  | x :: xs =>
    match splitOnChar c xs with
    | [] => [[]]
    | h :: t => if x == c then [] :: h :: t else (x :: h) :: t

/-- The last `'/'`-separated segment of a URL
(`url.split('/').last()`). -/
def lastSeg (s : List Char) : List Char :=
  (splitOnChar '/' s).getLastD []

/-- Rust `str::strip_suffix`. -/
def stripSuffix (suf s : List Char) : Option (List Char) :=
  if suf.isSuffixOf s then some (s.take (s.length - suf.length)) else none

/-- Install-name derivation from the selected asset URL:
`url.split('/').last().unwrap().strip_suffix(".tar.xz")`.
`none` models a panic of the second `unwrap`. -/
def deriveName (url : String) : Option String :=
  (stripSuffix ".tar.xz".data (lastSeg url.data)).map (fun l => ⟨l⟩)

/-- The two candidate install roots, in priority order:
`$HOME/.steam/root/compatibilitytools.d` then
`$HOME/.local/share/Steam/compatibilitytools.d`. -/
def steamCandidates (home : FsPath) : List FsPath :=
  [home ++ [".steam", "root", "compatibilitytools.d"],
   home ++ [".local", "share", "Steam", "compatibilitytools.d"]]

/-- Install-root resolution:
`paths.iter().find(|p| p.exists()).unwrap_or(&paths[0])`. -/
def resolveInstallDir (fs : Fs) (home : FsPath) : FsPath :=
  match (steamCandidates home).find? (fun p => pathExists fs p) with
  | some p => p
  | none => home ++ [".steam", "root", "compatibilitytools.d"]

/-- Scratch recreation before extraction:
`let _ = fs::remove_dir_all(&tmp_dir); fs::create_dir_all(&tmp_dir)?`.
The removal's error is ignored by the source (`let _ =`), so its success
is an oracle `rmOk`: on success the scratch subtree is removed, on
failure (the path absent, or an undeletable leftover) the filesystem is
unchanged; the creation then runs in either case. -/
def recreateScratch (fs : Fs) (tmp : FsPath) (rmOk : Bool) : Fs :=
  createDirAll (if rmOk then removeDirAll fs tmp else fs) tmp

/-- `archive.unpack(&tmp_dir)`: the extracted entries (paths relative to
the scratch directory, with their directory flags) are created under the
scratch directory and nowhere else. -/
def unpackFs (fs : Fs) (tmp : FsPath) (content : List (FsPath × Bool)) : Fs :=
  fs ++ content.map (fun pc => ⟨tmp ++ pc.1, pc.2⟩)

/-- The payload test of the extraction-locate step:
`p.is_dir() && p.file_name()?.to_str()?.starts_with("proton-")`. -/
def isProtonEntry (e : FsEntry) : Bool :=
  e.isDir && strStartsWith "proton-" (e.path.getLastD "")

/-- Locate the extracted payload: the first immediate child of the
scratch directory that is a directory named `proton-*`; `none` models
the `"Extracted folder not found"` error. -/
def locateExtracted (fs : Fs) (tmp : FsPath) : Option FsEntry :=
  (readDir fs tmp).find? isProtonEntry

/-- All payload candidates, in directory order (used to state what the
locate step does when several exist). -/
def extractCandidates (fs : Fs) (tmp : FsPath) : List FsEntry :=
  (readDir fs tmp).filter isProtonEntry

/-- The pruning name constant of the source, `"proton-cachyos-"`. -/
def protonPfx : String := "proton-cachyos-"

/-- The per-entry removal condition of the prune loop:
`p != install_path && p.is_dir() && name.starts_with("proton-cachyos-")`,
conjoined with the success of the ignored `fs::remove_dir_all` call. -/
def pruneCond (keep : FsPath) (removeOk : FsPath → Bool) (e : FsEntry) : Bool :=
  e.path != keep && e.isDir && strStartsWith protonPfx (e.path.getLastD "")
    && removeOk e.path

/-- The prune loop after a successful install: iterate over the children
of the install root and best-effort remove every directory other than
the freshly installed one whose name starts with `"proton-cachyos-"`. -/
def pruneFs (fs : Fs) (root keep : FsPath) (removeOk : FsPath → Bool) : Fs :=
  (readDir fs root).foldl
    (fun acc e => if pruneCond keep removeOk e then removeDirAll acc e.path else acc)
    fs

/-- Outcome of the archive extraction oracle: on failure the entries
already written before the interruption remain in the scratch area. -/
inductive ArchiveRes where
  | failed (written : List (FsPath × Bool))
  | ok (entries : List (FsPath × Bool))

/-- Outcome of the metadata fetch-and-parse. -/
inductive MetaRes where
  | netFail
  | parseFail
  | ok (r : Release)

/-- The run environment: process identity, environment variables, the
CPU feature report, and oracles for every external effect. -/
structure Env where
  euid : Nat
  home : Option FsPath
  cpuinfo : Option (List String)
  tmpBase : FsPath
  meta : MetaRes
  assetOk : Bool
  archive : ArchiveRes
  renameOk : Bool
  removeOk : FsPath → Bool

/-- Network and filesystem events, in program order. -/
inductive Ev where
  | fetchMeta
  | fetchAsset
  | fsRead (p : FsPath)
  | fsWrite (p : FsPath)
deriving DecidableEq, Repr

/-- Result of a run: process exit code, final filesystem, event trace. -/
structure RunResult where
  exitCode : Nat
  fs : Fs
  events : List Ev
deriving Repr

/-- The path of the CPU feature report read by `detect_arch`. -/
def cpuinfoPath : FsPath := ["proc", "cpuinfo"]

/-- End-to-end model of `main`, step for step in source order: root
refusal, `HOME` lookup, install-root resolution and creation,
capability detection, metadata fetch and parse, asset selection,
install-name derivation, idempotent-skip check, asset download, scratch
recreation, extraction, payload location, the single final rename, and
the best-effort prune. -/
def runMain (env : Env) (fs0 : Fs) : RunResult :=
  if env.euid == 0 then ⟨1, fs0, []⟩ else
  match env.home with
  | none => ⟨1, fs0, []⟩
  | some home =>
    let cand0 := home ++ [".steam", "root", "compatibilitytools.d"]
    let cand1 := home ++ [".local", "share", "Steam", "compatibilitytools.d"]
    let dirEvs : List Ev :=
      if pathExists fs0 cand0 then [Ev.fsRead cand0]
      else [Ev.fsRead cand0, Ev.fsRead cand1]
    let dir := resolveInstallDir fs0 home
    let fs1 := createDirAll fs0 dir
    let arch := detect_arch env.cpuinfo
    let evs2 := dirEvs ++ [Ev.fsWrite dir, Ev.fsRead cpuinfoPath, Ev.fetchMeta]
    match env.meta with
    | MetaRes.netFail => ⟨1, fs1, evs2⟩
    | MetaRes.parseFail => ⟨1, fs1, evs2⟩
    | MetaRes.ok rel =>
      match findAsset rel.assets arch with
      | none => ⟨1, fs1, evs2⟩
      | some a =>
        match deriveName a.browser_download_url with
        | none => ⟨101, fs1, evs2⟩
        | some name =>
          let ipath := dir ++ [name]
          let evs3 := evs2 ++ [Ev.fsRead ipath]
          if pathExists fs1 ipath then ⟨0, fs1, evs3⟩
          else
            let evs4 := evs3 ++ [Ev.fetchAsset]
            if !env.assetOk then ⟨1, fs1, evs4⟩
            else
              let tmp := env.tmpBase ++ ["proton_extract"]
              let fs2 := recreateScratch fs1 tmp (env.removeOk tmp)
              let evs5 := evs4 ++ [Ev.fsWrite tmp, Ev.fsWrite tmp]
              match env.archive with
              | ArchiveRes.failed written => ⟨1, unpackFs fs2 tmp written, evs5⟩
              | ArchiveRes.ok entries =>
                let fs3 := unpackFs fs2 tmp entries
                match locateExtracted fs3 tmp with
                | none => ⟨1, fs3, evs5⟩
                | some e =>
                  let evs7 := evs5 ++ [Ev.fsWrite ipath]
                  if !env.renameOk then ⟨1, fs3, evs7⟩
                  else
                    let fs4 := renameFs fs3 e.path ipath
                    let fs5 := pruneFs fs4 dir ipath env.removeOk
                    ⟨0, fs5, evs7 ++ [Ev.fsWrite dir]⟩

/-- The target install path of a run, when the run's inputs determine
one: `resolveInstallDir` for the root, the selected asset's URL for the
name. -/
def installPathOf (env : Env) (fs0 : Fs) : Option FsPath :=
  match env.home with
  | none => none
  | some home =>
    match env.meta with
    | MetaRes.ok rel =>
      match findAsset rel.assets (detect_arch env.cpuinfo) with
      | some a =>
        (deriveName a.browser_download_url).map
          (fun n => resolveInstallDir fs0 home ++ [n])
      | none => none
    | _ => none

/-! ### Helper lemmas about the filesystem model -/

lemma pathExists_append (fs gs : Fs) (p : FsPath) :
    pathExists (fs ++ gs) p = (pathExists fs p || pathExists gs p) := by
  simp [pathExists, List.any_append]

lemma pathExists_iff_mem (fs : Fs) (p : FsPath) :
    pathExists fs p = true ↔ ∃ e ∈ fs, e.path = p := by
  simp [pathExists, List.any_eq_true]

lemma mem_pathAncestors {q p : FsPath} (h : q ∈ pathAncestors p) :
    q <+: p ∧ q.length ≤ p.length := by
  simp only [pathAncestors, List.mem_map, List.mem_range] at h
  obtain ⟨i, _, rfl⟩ := h
  exact ⟨List.take_prefix _ _, ((List.take_prefix _ _).length_le)⟩

lemma self_mem_pathAncestors {p : FsPath} (h : p ≠ []) : p ∈ pathAncestors p := by
  have hlen : 0 < p.length := List.length_pos.mpr h
  simp only [pathAncestors, List.mem_map, List.mem_range]
  refine ⟨p.length - 1, by omega, ?_⟩
  have : p.length - 1 + 1 = p.length := by omega
  rw [this, List.take_length]

lemma pathExists_createDirAll_self (fs : Fs) {p : FsPath} (h : p ≠ []) :
    pathExists (createDirAll fs p) p = true := by
  rw [createDirAll, pathExists_append]
  cases hfs : pathExists fs p with
  | true => simp
  | false =>
    apply Bool.or_eq_true_iff.mpr
    right
    apply (pathExists_iff_mem _ _).mpr
    refine ⟨⟨p, true⟩, ?_, rfl⟩
    exact List.mem_map.mpr ⟨p, List.mem_filter.mpr
      ⟨self_mem_pathAncestors h, by simp [hfs]⟩, rfl⟩

lemma pathExists_createDirAll_of_not_pfx (fs : Fs) {p q : FsPath}
    (h : ¬ q <+: p) : pathExists (createDirAll fs p) q = pathExists fs q := by
  rw [createDirAll, pathExists_append]
  have : pathExists (((pathAncestors p).filter
      (fun r => !(pathExists fs r))).map (fun r => (⟨r, true⟩ : FsEntry))) q = false := by
    rw [Bool.eq_false_iff]
    intro hc
    obtain ⟨e, he, hep⟩ := (pathExists_iff_mem _ _).mp hc
    obtain ⟨r, hr, rfl⟩ := List.mem_map.mp he
    have := (mem_pathAncestors (List.mem_filter.mp hr).1).1
    simp only at hep
    subst hep
    exact h this
  rw [this, Bool.or_false]

lemma createDirAll_of_ancestors_exist (fs : Fs) {p : FsPath}
    (h : ∀ q ∈ pathAncestors p, pathExists fs q = true) :
    createDirAll fs p = fs := by
  rw [createDirAll]
  have : (pathAncestors p).filter (fun q => !(pathExists fs q)) = [] := by
    rw [List.filter_eq_nil_iff]
    intro q hq
    simp [h q hq]
  rw [this, List.map_nil, List.append_nil]

lemma createDirAll_idem (fs : Fs) (p : FsPath) :
    createDirAll (createDirAll fs p) p = createDirAll fs p := by
  apply createDirAll_of_ancestors_exist
  intro q hq
  rw [createDirAll, pathExists_append]
  cases hfs : pathExists fs q with
  | true => simp
  | false =>
    apply Bool.or_eq_true_iff.mpr
    right
    apply (pathExists_iff_mem _ _).mpr
    refine ⟨⟨q, true⟩, ?_, rfl⟩
    exact List.mem_map.mpr ⟨q, List.mem_filter.mpr ⟨hq, by simp [hfs]⟩, rfl⟩

lemma pathExists_removeDirAll_le (fs : Fs) (p q : FsPath)
    (h : pathExists (removeDirAll fs p) q = true) : pathExists fs q = true := by
  obtain ⟨e, he, hep⟩ := (pathExists_iff_mem _ _).mp h
  exact (pathExists_iff_mem _ _).mpr ⟨e, (List.mem_filter.mp he).1, hep⟩

lemma pathExists_unpackFs_of_not_under (fs : Fs) {tmp q : FsPath}
    (content : List (FsPath × Bool)) (h : ¬ tmp <+: q) :
    pathExists (unpackFs fs tmp content) q = pathExists fs q := by
  rw [unpackFs, pathExists_append]
  have : pathExists (content.map (fun pc => (⟨tmp ++ pc.1, pc.2⟩ : FsEntry))) q = false := by
    rw [Bool.eq_false_iff]
    intro hc
    obtain ⟨e, he, hep⟩ := (pathExists_iff_mem _ _).mp hc
    obtain ⟨pc, _, rfl⟩ := List.mem_map.mp he
    simp only at hep
    subst hep
    exact h (List.prefix_append _ _)
  rw [this, Bool.or_false]

lemma isPrefixOf_true_iff (l₁ l₂ : FsPath) :
    l₁.isPrefixOf l₂ = true ↔ l₁ <+: l₂ := List.isPrefixOf_iff_prefix

lemma find?_eq_head?_filter {α : Type} (p : α → Bool) :
    ∀ l : List α, l.find? p = (l.filter p).head?
  | [] => rfl
  | x :: xs => by
    cases hx : p x with
    | true =>
      rw [List.find?_cons_of_pos _ hx, List.filter_cons_of_pos hx, List.head?_cons]
    | false =>
      rw [List.find?_cons_of_neg _ (by simp [hx]), List.filter_cons_of_neg (by simp [hx])]
      exact find?_eq_head?_filter p xs


/-! ### Helper lemmas about URL splitting and suffixes -/

lemma splitOnChar_ne_nil (c : Char) : ∀ l : List Char, splitOnChar c l ≠ []
  | [] => by simp [splitOnChar]
  | x :: xs => by
    cases h : splitOnChar c xs with
    | nil => exact absurd h (splitOnChar_ne_nil c xs)
    | cons hd tl =>
      simp only [splitOnChar, h]
      split <;> simp

lemma splitOnChar_eq_single (c : Char) :
    ∀ (l h : List Char), splitOnChar c l = [h] → h = l
  | [], h => by
    intro e
    simp only [splitOnChar] at e
    injection e with e1
    exact e1.symm
  | x :: xs, h => by
    intro e
    cases hs : splitOnChar c xs with
    | nil => exact absurd hs (splitOnChar_ne_nil c xs)
    | cons hd tl =>
      simp only [splitOnChar, hs] at e
      by_cases hx : (x == c) = true
      · rw [if_pos hx] at e
        injection e with _ e2
        cases e2
      · rw [if_neg hx] at e
        injection e with e1 e2
        subst e2
        have : hd = xs := splitOnChar_eq_single c xs hd hs
        subst this
        exact e1.symm

lemma splitOnChar_of_not_mem (c : Char) :
    ∀ l : List Char, (∀ x ∈ l, ¬ x = c) → splitOnChar c l = [l]
  | [] => by intro _; rfl
  | x :: xs => by
    intro h
    have hxs := splitOnChar_of_not_mem c xs (fun y hy => h y (List.mem_cons_of_mem _ hy))
    have hx : ¬ (x == c) = true := by
      simp only [beq_iff_eq]
      exact h x (List.mem_cons_self _ _)
    simp only [splitOnChar, hxs, if_neg hx]

lemma suffix_lastSegGen (c : Char) :
    ∀ (l s : List Char), s <:+ l → (∀ x ∈ s, ¬ x = c) →
      s <:+ (splitOnChar c l).getLastD []
  | [], s => by
    intro hs _
    have : s = [] := List.suffix_nil.mp hs
    subst this
    simp [splitOnChar]
  | x :: xs, s => by
    intro hs hc
    cases hsplit : splitOnChar c xs with
    | nil => exact absurd hsplit (splitOnChar_ne_nil c xs)
    | cons hd tl =>
      rcases List.suffix_cons_iff.mp hs with rfl | htail
      · -- the suffix is the whole list, so the list holds no separator
        have hxs : ∀ y ∈ xs, ¬ y = c := fun y hy => hc y (List.mem_cons_of_mem _ hy)
        have hx : ¬ (x == c) = true := by
          simp only [beq_iff_eq]
          exact hc x (List.mem_cons_self _ _)
        have hone : splitOnChar c xs = [xs] := splitOnChar_of_not_mem c xs hxs
        rw [hsplit] at hone
        injection hone with e1 e2
        subst e1; subst e2
        simp only [splitOnChar, hsplit, if_neg hx, List.getLastD_cons, List.getLastD]
        exact List.suffix_refl _
      · have hrec := suffix_lastSegGen c xs s htail hc
        rw [hsplit] at hrec
        by_cases hx : (x == c) = true
        · simp only [splitOnChar, hsplit, if_pos hx]
          rw [List.getLastD_cons]
          exact hrec
        · cases tl with
          | nil =>
            have : hd = xs := splitOnChar_eq_single c xs hd hsplit
            subst this
            simp only [splitOnChar, hsplit, if_neg hx, List.getLastD]
            exact List.suffix_cons_iff.mpr (Or.inr htail)
          | cons hd2 tl2 =>
            simp only [splitOnChar, hsplit, if_neg hx]
            rw [List.getLastD_cons, List.getLastD_cons]
            rw [List.getLastD_cons, List.getLastD_cons] at hrec
            exact hrec

lemma strEndsWith_iff (suf s : String) :
    strEndsWith suf s = true ↔ suf.data <:+ s.data := by
  rw [strEndsWith]
  exact List.isSuffixOf_iff_suffix

lemma v3_excludes_baseline (u : String)
    (h : strEndsWith ("x86_64_v3" ++ ".tar.xz") u = true) :
    strEndsWith ("x86_64" ++ ".tar.xz") u = false := by
  rw [strEndsWith_iff] at h
  rw [Bool.eq_false_iff]
  intro hb
  rw [strEndsWith_iff] at hb
  have hle : ("x86_64" ++ ".tar.xz").data.length ≤ ("x86_64_v3" ++ ".tar.xz").data.length := by
    decide
  have := List.suffix_of_suffix_length_le hb h hle
  revert this
  decide

/-! ### Claim C9 -/

/-- Scratch path of the C9 counterexample. -/
def c9tmp : FsPath := ["tmp", "proton_extract"]

/-- A prior filesystem state with a leftover of a previously interrupted
run below the scratch path. -/
def c9fs : Fs :=
  [⟨["tmp"], true⟩, ⟨["tmp", "proton_extract"], true⟩,
   ⟨["tmp", "proton_extract", "proton-stale"], true⟩]

/-- Claim C9, counterexample: the source ignores the error of the
scratch removal (`let _ = fs::remove_dir_all(..)`), so when that removal
fails on an undeletable leftover of a previous interrupted run, the
recreated scratch is not empty — the stale entry is still there when
extraction starts, refuting unconditional emptiness for every prior
state. -/
theorem scratch_leftover_survives_failed_removal :
    pathExists c9fs (c9tmp ++ ["proton-stale"]) = true ∧
    readDir (recreateScratch c9fs c9tmp false) c9tmp =
      [⟨["tmp", "proton_extract", "proton-stale"], true⟩] := by
  constructor
  · decide
  · decide

/-- Claim C9, amended: before every extraction the scratch area is
recreated — a best-effort removal whose error is ignored, then a
creation — so the scratch path exists afterwards in every case, and
whenever the ignored removal succeeds (in particular whenever no
scratch directory was present) extraction starts from an empty
directory; when the removal fails, leftovers of a previous interrupted
run survive into the scratch. -/
theorem scratch_empty_when_removal_succeeds (fs : Fs) (tmp : FsPath)
    (rmOk : Bool) (htmp : tmp ≠ []) :
    readDir (recreateScratch fs tmp true) tmp = [] ∧
    pathExists (recreateScratch fs tmp rmOk) tmp = true := by
  constructor
  · rw [recreateScratch, if_pos rfl, createDirAll, readDir, List.filter_append]
    have h1 : (removeDirAll fs tmp).filter
        (fun e => e.path.length == tmp.length + 1 && tmp.isPrefixOf e.path) = [] := by
      rw [List.filter_eq_nil_iff]
      intro e he
      rw [removeDirAll] at he
      have hcond := (List.mem_filter.mp he).2
      simp only [Bool.not_eq_true'] at hcond
      simp [hcond]
    have h2 : (((pathAncestors tmp).filter
          (fun q => !(pathExists (removeDirAll fs tmp) q))).map
        (fun q => (⟨q, true⟩ : FsEntry))).filter
        (fun e => e.path.length == tmp.length + 1 && tmp.isPrefixOf e.path) = [] := by
      rw [List.filter_eq_nil_iff]
      intro e he
      obtain ⟨q, hq, rfl⟩ := List.mem_map.mp he
      have hlen := (mem_pathAncestors (List.mem_filter.mp hq).1).2
      have hne : (q.length == tmp.length + 1) = false := by
        have : q.length ≠ tmp.length + 1 := by omega
        simp [this]
      simp [hne]
    rw [h1, h2]
    rfl
  · rw [recreateScratch]
    exact pathExists_createDirAll_self _ htmp

/-- Witness for the amended C9, at a concrete state with a leftover and
a failing removal for the existence conjunct. -/
theorem scratch_empty_when_removal_succeeds_witness :
    readDir (recreateScratch c9fs c9tmp true) c9tmp = [] ∧
    pathExists (recreateScratch c9fs c9tmp false) c9tmp = true :=
  scratch_empty_when_removal_succeeds c9fs c9tmp false (by decide)

/-! ### Claim C6 -/

/-- The scratch directory of the C6 counterexample. -/
def c6tmp : FsPath := ["tmp", "proton_extract"]

/-- An extraction result with two top-level `proton-` directories. -/
def c6fs : Fs :=
  [⟨["tmp", "proton_extract", "proton-a"], true⟩,
   ⟨["tmp", "proton_extract", "proton-b"], true⟩]

/-- Claim C6, counterexample: an extraction result with exactly two
top-level `proton-` directory candidates does not make the locate step
fail — it succeeds with the first candidate, refuting the claim that
more than one candidate yields a `LayoutError`. -/
theorem locate_two_candidates_first :
    (extractCandidates c6fs c6tmp).length = 2 ∧
    locateExtracted c6fs c6tmp =
      some ⟨["tmp", "proton_extract", "proton-a"], true⟩ := by
  constructor
  · decide
  · decide

/-- Claim C6, amended: locating the payload fails exactly when there is
no top-level extracted directory whose name starts with `proton-`; when
one or more candidates exist, it succeeds with the first candidate in
directory order (it does not fail on several candidates). -/
theorem locate_first_in_dir_order (fs : Fs) (tmp : FsPath) :
    locateExtracted fs tmp = (extractCandidates fs tmp).head? ∧
    (locateExtracted fs tmp = none ↔ extractCandidates fs tmp = []) := by
  have h : locateExtracted fs tmp = (extractCandidates fs tmp).head? := by
    rw [locateExtracted, extractCandidates]
    exact find?_eq_head?_filter _ _
  refine ⟨h, ?_⟩
  rw [h]
  exact List.head?_eq_none_iff

/-! ### Claim C7 -/

/-- Claim C7: invoked with effective uid 0 the run refuses immediately:
nonzero exit code, the filesystem untouched, and an empty event trace —
no network access and no filesystem access, read or write, happens
before termination. -/
theorem root_refused (env : Env) (fs0 : Fs) (h : env.euid = 0) :
    runMain env fs0 = ⟨1, fs0, []⟩ := by
  rw [runMain]
  simp [h]

/-- Concrete environment for the C7 witness: effective uid 0. -/
def c7env : Env :=
  ⟨0, none, none, [], MetaRes.netFail, false, ArchiveRes.ok [], false, fun _ => false⟩

/-- Witness for C7 at a concrete root environment. -/
theorem root_refused_witness : runMain c7env [] = ⟨1, [], []⟩ :=
  root_refused c7env [] rfl

/-! ### Claim C2 -/

/-- A CPU feature report whose first flags line lacks the v3 features
while a later flags line jointly reports all of them. -/
def c2lines : List String := ["flags: fpu", "flags: avx2 bmi1 bmi2 fma"]

/-- Claim C2, counterexample: this report holds a flags line jointly
reporting AVX2, BMI1, BMI2 and FMA, yet `detect_arch` returns the
baseline tag, because only the first line starting with `"flags"` is
inspected. -/
theorem detect_ignores_later_flags_lines :
    (∃ l ∈ c2lines, isFlagsLine l = true ∧ hasV3Flags l = true) ∧
    detect_arch (some c2lines) = "x86_64" := by
  constructor
  · exact ⟨"flags: avx2 bmi1 bmi2 fma", by decide, by decide, by decide⟩
  · decide

/-- Claim C2, amended: `detect_arch` never fails — it always returns one
of the two tags — and it returns the v3 tag exactly when the report is
readable and its first line starting with `"flags"` jointly reports
AVX2, BMI1, BMI2 and FMA; in every other case (first flags line missing
a feature, no flags line, unreadable report) it returns baseline. -/
theorem detect_arch_first_flags_line (c : Option (List String)) :
    (detect_arch c = "x86_64_v3" ∨ detect_arch c = "x86_64") ∧
    (detect_arch c = "x86_64_v3" ↔ ∃ lines pre f post,
      c = some lines ∧ lines = pre ++ f :: post ∧
      (∀ l ∈ pre, isFlagsLine l = false) ∧
      isFlagsLine f = true ∧ hasV3Flags f = true) := by
  cases c with
  | none =>
    refine ⟨Or.inr rfl, ?_, ?_⟩
    · intro h
      exact absurd h (by decide)
    · rintro ⟨lines, pre, f, post, h, -⟩
      cases h
  | some lines =>
    cases hf : lines.find? isFlagsLine with
    | none =>
      have hnone : ∀ l ∈ lines, isFlagsLine l = false := by
        intro l hl
        have := List.find?_eq_none.mp hf l hl
        simpa using this
      refine ⟨Or.inr (by simp [detect_arch, hf]), ?_, ?_⟩
      · intro h
        rw [detect_arch] at h
        rw [hf] at h
        exact absurd h (by decide)
      · rintro ⟨lines2, pre, f, post, h, hdec, -, hflags, -⟩
        injection h with h
        subst h
        have : f ∈ lines := by
          rw [hdec]
          exact List.mem_append.mpr (Or.inr (List.mem_cons_self _ _))
        rw [hnone f this] at hflags
        cases hflags
    | some f =>
      have hchar := List.find?_eq_some.mp hf
      obtain ⟨hpf, pre, post, hdec, hpre⟩ := hchar
      cases hv : hasV3Flags f with
      | true =>
        have hd : detect_arch (some lines) = "x86_64_v3" := by
          simp [detect_arch, hf, hv]
        refine ⟨Or.inl hd, ?_, fun _ => hd⟩
        intro _
        refine ⟨lines, pre, f, post, rfl, hdec, ?_, hpf, hv⟩
        intro l hl
        have := hpre l hl
        simpa using this
      | false =>
        have hd : detect_arch (some lines) = "x86_64" := by
          simp [detect_arch, hf, hv]
        refine ⟨Or.inr hd, ?_, ?_⟩
        · intro h
          rw [hd] at h
          exact absurd h (by decide)
        · rintro ⟨lines2, pre2, f2, post2, h, hdec2, hpre2, hflags2, hv2⟩
          injection h with h
          subst h
          have : lines.find? isFlagsLine = some f2 := by
            apply List.find?_eq_some.mpr
            refine ⟨hflags2, pre2, post2, hdec2, ?_⟩
            intro l hl
            simp [hpre2 l hl]
          rw [hf] at this
          injection this with this
          subst this
          rw [hv] at hv2
          cases hv2

/-! ### Claim C3 -/

/-- Claim C3: asset resolution returns the first asset in feed order
whose download URL ends with `"<tag>.tar.xz"`, fails exactly when no
asset's URL carries that suffix, and in particular fails for the
baseline tag when only v3 assets are present. -/
theorem findAsset_first_match (assets : List ReleaseAsset) (arch : String) :
    (∀ a, findAsset assets arch = some a ↔
      assetMatches arch a = true ∧ ∃ pre post, assets = pre ++ a :: post ∧
        ∀ b ∈ pre, assetMatches arch b = false) ∧
    (findAsset assets arch = none ↔ ∀ a ∈ assets, assetMatches arch a = false) ∧
    ((∀ a ∈ assets, strEndsWith ("x86_64_v3" ++ ".tar.xz") a.browser_download_url = true) →
      findAsset assets "x86_64" = none) := by
  refine ⟨?_, ?_, ?_⟩
  · intro a
    rw [findAsset, List.find?_eq_some]
    constructor
    · rintro ⟨hm, pre, post, hdec, hpre⟩
      exact ⟨hm, pre, post, hdec, fun b hb => by simpa using hpre b hb⟩
    · rintro ⟨hm, pre, post, hdec, hpre⟩
      exact ⟨hm, pre, post, hdec, fun b hb => by simp [hpre b hb]⟩
  · rw [findAsset]
    constructor
    · intro h a ha
      have := List.find?_eq_none.mp h a ha
      simpa using this
    · intro h
      apply List.find?_eq_none.mpr
      intro a ha
      simp [h a ha]
  · intro h
    rw [findAsset]
    apply List.find?_eq_none.mpr
    intro a ha
    rw [assetMatches, v3_excludes_baseline _ (h a ha)]
    simp

/-- A single-asset feed carrying only a v3 build. -/
def c3assets : List ReleaseAsset := [⟨"r/proton-cachyos-2.0-x86_64_v3.tar.xz"⟩]

/-- Witness for C3: the baseline tag finds no asset in a v3-only feed. -/
theorem findAsset_first_match_witness :
    findAsset c3assets "x86_64" = none :=
  (findAsset_first_match c3assets "x86_64").2.2 (by decide)

/-! ### Claim C8 -/

lemma resolveInstallDir_ne_nil (fs : Fs) (home : FsPath) :
    resolveInstallDir fs home ≠ [] := by
  rw [resolveInstallDir]
  cases h : (steamCandidates home).find? (fun p => pathExists fs p) with
  | none => simp
  | some p =>
    have hp := List.mem_of_find?_eq_some h
    rw [steamCandidates] at hp
    simp only [List.mem_cons, List.not_mem_nil, or_false] at hp
    rcases hp with rfl | rfl <;> simp

/-- Claim C8: install-root resolution returns the first candidate of the
fixed ordered list that exists, and the first candidate when none
exists; the resolved root exists after the unconditional directory
creation; and directory creation is idempotent, so creating an
already-existing directory is not an error. -/
theorem installRoot_resolution (fs : Fs) (home : FsPath) :
    (pathExists fs (home ++ [".steam", "root", "compatibilitytools.d"]) = true →
      resolveInstallDir fs home = home ++ [".steam", "root", "compatibilitytools.d"]) ∧
    (pathExists fs (home ++ [".steam", "root", "compatibilitytools.d"]) = false →
      pathExists fs (home ++ [".local", "share", "Steam", "compatibilitytools.d"]) = true →
      resolveInstallDir fs home = home ++ [".local", "share", "Steam", "compatibilitytools.d"]) ∧
    (pathExists fs (home ++ [".steam", "root", "compatibilitytools.d"]) = false →
      pathExists fs (home ++ [".local", "share", "Steam", "compatibilitytools.d"]) = false →
      resolveInstallDir fs home = home ++ [".steam", "root", "compatibilitytools.d"]) ∧
    pathExists (createDirAll fs (resolveInstallDir fs home))
      (resolveInstallDir fs home) = true ∧
    createDirAll (createDirAll fs (resolveInstallDir fs home))
      (resolveInstallDir fs home) = createDirAll fs (resolveInstallDir fs home) := by
  refine ⟨?_, ?_, ?_, ?_, ?_⟩
  · intro h1
    simp [resolveInstallDir, steamCandidates, List.find?, h1]
  · intro h1 h2
    simp [resolveInstallDir, steamCandidates, List.find?, h1, h2]
  · intro h1 h2
    simp [resolveInstallDir, steamCandidates, List.find?, h1, h2]
  · exact pathExists_createDirAll_self fs (resolveInstallDir_ne_nil fs home)
  · exact createDirAll_idem fs (resolveInstallDir fs home)

/-- Witness for C8 at a concrete state: the first candidate is absent,
the second exists and is selected. -/
theorem installRoot_resolution_witness :
    resolveInstallDir [⟨["h", ".local", "share", "Steam", "compatibilitytools.d"], true⟩] ["h"] =
      ["h", ".local", "share", "Steam", "compatibilitytools.d"] :=
  (installRoot_resolution _ ["h"]).2.1 (by decide) (by decide)

/-! ### Claim C10 -/

/-- Claim C10: for every asset URL accepted by the selection predicate —
its download URL ends with `"<tag>.tar.xz"` for the detected tag — the
install-name derivation cannot panic: splitting on `'/'` always yields
at least one segment, the `".tar.xz"` suffix is always present on the
last segment, and the derived name is nonempty. -/
theorem deriveName_no_panic (url arch : String)
    (harch : arch = "x86_64" ∨ arch = "x86_64_v3")
    (h : strEndsWith (arch ++ ".tar.xz") url = true) :
    splitOnChar '/' url.data ≠ [] ∧
    ∃ n, deriveName url = some n ∧ n ≠ "" := by
  refine ⟨splitOnChar_ne_nil _ _, ?_⟩
  have hsuf : (arch ++ ".tar.xz").data <:+ url.data := (strEndsWith_iff _ _).mp h
  have hno : ∀ x ∈ (arch ++ ".tar.xz").data, ¬ x = '/' := by
    rcases harch with rfl | rfl <;> decide
  have hlast : (arch ++ ".tar.xz").data <:+ lastSeg url.data := by
    rw [lastSeg]
    exact suffix_lastSegGen '/' url.data _ hsuf hno
  have htz : ".tar.xz".data <:+ lastSeg url.data := by
    apply List.IsSuffix.trans _ hlast
    rw [String.data_append]
    exact List.suffix_append _ _
  have hlen : 13 ≤ (lastSeg url.data).length := by
    have h1 := hlast.length_le
    have h2 : 13 ≤ ((arch ++ ".tar.xz")).data.length := by
      rcases harch with rfl | rfl <;> decide
    omega
  have hso : (".tar.xz".data.isSuffixOf (lastSeg url.data)) = true :=
    List.isSuffixOf_iff_suffix.mpr htz
  rw [deriveName, stripSuffix, if_pos hso, Option.map_some']
  refine ⟨_, rfl, ?_⟩
  intro hcon
  have hdata : (lastSeg url.data).take
      ((lastSeg url.data).length - ".tar.xz".data.length) = [] := by
    have := congrArg String.data hcon
    simpa using this
  rw [List.take_eq_nil_iff] at hdata
  have h7 : ".tar.xz".data.length = 7 := by decide
  rcases hdata with h1 | h1
  · rw [h7] at h1
    omega
  · rw [h1] at hlen
    simp at hlen

/-- Witness for C10 at a concrete accepted URL. -/
theorem deriveName_no_panic_witness :
    splitOnChar '/' "r/proton-cachyos-2.0-x86_64.tar.xz".data ≠ [] ∧
    ∃ n, deriveName "r/proton-cachyos-2.0-x86_64.tar.xz" = some n ∧ n ≠ "" :=
  deriveName_no_panic "r/proton-cachyos-2.0-x86_64.tar.xz" "x86_64" (Or.inl rfl) (by decide)

/-! ### Claim C5 -/

lemma prune_foldl_filter (cond : FsEntry → Bool) :
    ∀ (L : List FsEntry) (fs : Fs),
      L.foldl (fun acc e => if cond e then removeDirAll acc e.path else acc) fs =
      fs.filter (fun x => !(L.any (fun d => cond d && d.path.isPrefixOf x.path)))
  | [], fs => by simp
  | d :: t, fs => by
    rw [List.foldl_cons, prune_foldl_filter cond t]
    cases hc : cond d with
    | false =>
      rw [if_neg (by simp)]
      congr 1
      funext x
      simp [hc]
    | true =>
      rw [if_pos rfl, removeDirAll, List.filter_filter]
      congr 1
      funext x
      simp only [List.any_cons, hc, Bool.true_and, Bool.not_or]
      rw [Bool.and_comm]

lemma readDir_shape {fs : Fs} {root : FsPath} {d : FsEntry} (h : d ∈ readDir fs root) :
    d ∈ fs ∧ ∃ n, d.path = root ++ [n] := by
  rw [readDir] at h
  have hm := List.mem_filter.mp h
  refine ⟨hm.1, ?_⟩
  have hc := hm.2
  simp only [Bool.and_eq_true, beq_iff_eq] at hc
  obtain ⟨hlen, hpre⟩ := hc
  rw [isPrefixOf_true_iff] at hpre
  obtain ⟨t, ht⟩ := hpre
  have hlt : t.length = 1 := by
    have := congrArg List.length ht
    simp only [List.length_append] at this
    omega
  obtain ⟨n, rfl⟩ := List.length_eq_one.mp hlt
  exact ⟨n, ht.symm⟩

lemma prefix_eq_of_length_eq {l₁ l₂ l : FsPath} (h1 : l₁ <+: l) (h2 : l₂ <+: l)
    (hlen : l₁.length = l₂.length) : l₁ = l₂ :=
  (List.prefix_of_prefix_length_le h1 h2 (le_of_eq hlen)).eq_of_length_le
    (le_of_eq hlen.symm)

/-- Claim C5: after a successful install of the name `kn`, pruning (a)
keeps the whole subtree of the installed directory, (b) keeps every
entry under a sibling whose name does not carry the
`"proton-cachyos-"` naming constant, (c) keeps every entry under a
sibling whose best-effort removal failed (failures are ignored, not
propagated), (d) removes every sibling directory whose name carries the
naming constant and differs from `kn` and whose removal succeeds, and
(e) never adds entries. -/
theorem prune_superseded (fs : Fs) (root : FsPath) (kn : String)
    (removeOk : FsPath → Bool) :
    (∀ e ∈ fs, (root ++ [kn]) <+: e.path →
        e ∈ pruneFs fs root (root ++ [kn]) removeOk) ∧
    (∀ e ∈ fs, ∀ n, (root ++ [n]) <+: e.path →
        strStartsWith protonPfx n = false →
        e ∈ pruneFs fs root (root ++ [kn]) removeOk) ∧
    (∀ e ∈ fs, ∀ n, (root ++ [n]) <+: e.path → removeOk (root ++ [n]) = false →
        e ∈ pruneFs fs root (root ++ [kn]) removeOk) ∧
    (∀ d ∈ readDir fs root, pruneCond (root ++ [kn]) removeOk d = true →
        pathExists (pruneFs fs root (root ++ [kn]) removeOk) d.path = false) ∧
    (∀ e ∈ pruneFs fs root (root ++ [kn]) removeOk, e ∈ fs) := by
  have hchar : pruneFs fs root (root ++ [kn]) removeOk =
      fs.filter (fun x => !((readDir fs root).any
        (fun d => pruneCond (root ++ [kn]) removeOk d && d.path.isPrefixOf x.path))) := by
    rw [pruneFs]
    exact prune_foldl_filter _ _ _
  have hcond := fun (d : FsEntry) (hd : pruneCond (root ++ [kn]) removeOk d = true) => by
    simp only [pruneCond, Bool.and_eq_true] at hd
    exact hd
  refine ⟨?_, ?_, ?_, ?_, ?_⟩
  · -- the installed directory's subtree is preserved
    intro e he hkeep
    rw [hchar]
    apply List.mem_filter.mpr
    refine ⟨he, ?_⟩
    rw [Bool.not_eq_true']
    apply List.any_eq_false.mpr
    intro d hd
    simp only [Bool.and_eq_true, not_and]
    intro hcd hpre
    obtain ⟨-, m, hm⟩ := readDir_shape hd
    rw [isPrefixOf_true_iff] at hpre
    have heq : d.path = root ++ [kn] := by
      apply prefix_eq_of_length_eq hpre hkeep
      rw [hm]
      simp
    obtain ⟨⟨⟨hne, -⟩, -⟩, -⟩ := hcond d hcd
    exact absurd heq (bne_iff_ne.mp hne)
  · -- siblings without the naming constant are preserved
    intro e he n hn hpf
    rw [hchar]
    apply List.mem_filter.mpr
    refine ⟨he, ?_⟩
    rw [Bool.not_eq_true']
    apply List.any_eq_false.mpr
    intro d hd
    simp only [Bool.and_eq_true, not_and]
    intro hcd hpre
    obtain ⟨-, m, hm⟩ := readDir_shape hd
    rw [isPrefixOf_true_iff] at hpre
    have heq : d.path = root ++ [n] := by
      apply prefix_eq_of_length_eq hpre hn
      rw [hm]
      simp
    obtain ⟨⟨⟨-, -⟩, hp⟩, -⟩ := hcond d hcd
    rw [heq, List.getLastD_concat] at hp
    rw [hp] at hpf
    cases hpf
  · -- siblings whose removal failed are preserved
    intro e he n hn hok
    rw [hchar]
    apply List.mem_filter.mpr
    refine ⟨he, ?_⟩
    rw [Bool.not_eq_true']
    apply List.any_eq_false.mpr
    intro d hd
    simp only [Bool.and_eq_true, not_and]
    intro hcd hpre
    obtain ⟨-, m, hm⟩ := readDir_shape hd
    rw [isPrefixOf_true_iff] at hpre
    have heq : d.path = root ++ [n] := by
      apply prefix_eq_of_length_eq hpre hn
      rw [hm]
      simp
    obtain ⟨⟨⟨-, -⟩, -⟩, ho⟩ := hcond d hcd
    rw [heq, hok] at ho
    cases ho
  · -- matching siblings with successful removal are gone
    intro d hd hcd
    rw [hchar, Bool.eq_false_iff]
    intro hex
    obtain ⟨x, hx, hxp⟩ := (pathExists_iff_mem _ _).mp hex
    have hxf := List.mem_filter.mp hx
    have hany : (readDir fs root).any
        (fun d2 => pruneCond (root ++ [kn]) removeOk d2 && d2.path.isPrefixOf x.path) = true := by
      apply List.any_eq_true.mpr
      refine ⟨d, hd, ?_⟩
      simp only [Bool.and_eq_true]
      refine ⟨hcd, ?_⟩
      rw [isPrefixOf_true_iff, hxp]
    rw [Bool.not_eq_true', hany] at hxf
    cases hxf.2
  · -- pruning never adds entries
    intro e he
    rw [hchar] at he
    exact (List.mem_filter.mp he).1

/-- The install root of the C5 witness. -/
def c5root : FsPath := ["r"]

/-- A post-install state with the fresh install, one stale sibling and
one unrelated directory. -/
def c5fs : Fs :=
  [⟨["r"], true⟩,
   ⟨["r", "proton-cachyos-9-x86_64"], true⟩,
   ⟨["r", "proton-cachyos-8-x86_64"], true⟩,
   ⟨["r", "other-thing"], true⟩]

/-- Witness for C5: the kept install and the unrelated directory
survive pruning, the stale prefixed sibling is removed. -/
theorem prune_superseded_witness :
    (⟨["r", "proton-cachyos-9-x86_64"], true⟩ : FsEntry) ∈
      pruneFs c5fs c5root (c5root ++ ["proton-cachyos-9-x86_64"]) (fun _ => true) ∧
    (⟨["r", "other-thing"], true⟩ : FsEntry) ∈
      pruneFs c5fs c5root (c5root ++ ["proton-cachyos-9-x86_64"]) (fun _ => true) ∧
    pathExists (pruneFs c5fs c5root (c5root ++ ["proton-cachyos-9-x86_64"]) (fun _ => true))
      ["r", "proton-cachyos-8-x86_64"] = false :=
  ⟨(prune_superseded c5fs c5root "proton-cachyos-9-x86_64" (fun _ => true)).1
      ⟨["r", "proton-cachyos-9-x86_64"], true⟩ (by decide) (by decide),
   (prune_superseded c5fs c5root "proton-cachyos-9-x86_64" (fun _ => true)).2.1
      ⟨["r", "other-thing"], true⟩ (by decide) "other-thing" (by decide) (by decide),
   (prune_superseded c5fs c5root "proton-cachyos-9-x86_64" (fun _ => true)).2.2.2.1
      ⟨["r", "proton-cachyos-8-x86_64"], true⟩ (by decide) (by decide)⟩

/-! ### Claim C4 -/

lemma ancestors_exist_of_child (fs : Fs) (dir : FsPath) (name : String)
    (hac : ancestorClosed fs = true) (hex : pathExists fs (dir ++ [name]) = true) :
    ∀ q ∈ pathAncestors dir, pathExists fs q = true := by
  intro q hq
  obtain ⟨e, he, hep⟩ := (pathExists_iff_mem _ _).mp hex
  rw [ancestorClosed, List.all_eq_true] at hac
  have hall := hac e he
  rw [List.all_eq_true] at hall
  simp only [pathAncestors, List.mem_map, List.mem_range] at hq
  obtain ⟨i, hi, rfl⟩ := hq
  have htake : dir.take (i + 1) = e.path.take (i + 1) := by
    rw [hep, List.take_append_of_le_length (by omega)]
  rw [htake]
  apply hall
  rw [List.mem_range, hep]
  simp only [List.length_append, List.length_cons, List.length_nil]
  omega

/-- Claim C4: when the resolved install name already exists under the
install root (on an ancestor-closed filesystem), the run downloads no
asset, changes nothing on disk — the final filesystem equals the
initial one, the unconditional `create_dir_all` included — and exits
with code 0. -/
theorem already_installed_noop (env : Env) (fs0 : Fs) (home : FsPath) (p : FsPath)
    (h0 : env.euid ≠ 0) (hh : env.home = some home)
    (hip : installPathOf env fs0 = some p)
    (hex : pathExists fs0 p = true)
    (hac : ancestorClosed fs0 = true) :
    (runMain env fs0).exitCode = 0 ∧ (runMain env fs0).fs = fs0 ∧
    Ev.fetchAsset ∉ (runMain env fs0).events := by
  cases hmeta : env.meta with
  | netFail => simp [installPathOf, hh, hmeta] at hip
  | parseFail => simp [installPathOf, hh, hmeta] at hip
  | ok rel =>
    cases hfa : findAsset rel.assets (detect_arch env.cpuinfo) with
    | none => simp [installPathOf, hh, hmeta, hfa] at hip
    | some a =>
      cases hdn : deriveName a.browser_download_url with
      | none => simp [installPathOf, hh, hmeta, hfa, hdn] at hip
      | some name =>
        simp only [installPathOf, hh, hmeta, hfa, hdn, Option.map_some',
          Option.some.injEq] at hip
        have hp := hip
        have hanc := ancestors_exist_of_child fs0 (resolveInstallDir fs0 home) name hac
          (by rw [hp]; exact hex)
        have hfs1 : createDirAll fs0 (resolveInstallDir fs0 home) = fs0 :=
          createDirAll_of_ancestors_exist fs0 hanc
        have hbeq : (env.euid == 0) = false := by
          simp [h0]
        simp only [runMain, hbeq, Bool.false_eq_true, if_false, hh, hmeta, hfa, hdn,
          hfs1, hp, hex, if_true]
        refine ⟨trivial, trivial, ?_⟩
        cases hc : pathExists fs0 (home ++ [".steam", "root", "compatibilitytools.d"]) with
        | true => simp
        | false => simp

/-- Concrete environment for the C4 witness: target already installed. -/
def c4env : Env :=
  ⟨1, some ["h"], none, ["tmp"],
   MetaRes.ok ⟨"v2", [⟨"r/proton-cachyos-2.0-x86_64.tar.xz"⟩]⟩,
   true, ArchiveRes.ok [], true, fun _ => true⟩

/-- Concrete ancestor-closed filesystem with the target installed. -/
def c4fs : Fs :=
  [⟨["h"], true⟩, ⟨["h", ".steam"], true⟩, ⟨["h", ".steam", "root"], true⟩,
   ⟨["h", ".steam", "root", "compatibilitytools.d"], true⟩,
   ⟨["h", ".steam", "root", "compatibilitytools.d", "proton-cachyos-2.0-x86_64"], true⟩]

/-- Witness for C4 at a concrete already-installed state. -/
theorem already_installed_noop_witness :
    (runMain c4env c4fs).exitCode = 0 ∧ (runMain c4env c4fs).fs = c4fs ∧
    Ev.fetchAsset ∉ (runMain c4env c4fs).events :=
  already_installed_noop c4env c4fs ["h"]
    ["h", ".steam", "root", "compatibilitytools.d", "proton-cachyos-2.0-x86_64"]
    (by decide) rfl (by decide) (by decide) (by decide)

/-! ### Claim C1 -/

/-- Claim C1: archive extraction writes only into the scratch area, and
— provided the scratch directory and the target path are not nested in
one another, as the spec's data model prescribes for the transient
scratch area — whenever the target path is initially absent and the run
fails (any nonzero exit: download, archive, layout or rename failure),
the install root still has no entry at the target path: the target is
created solely by the single final rename. -/
theorem no_partial_install (env : Env) (fs0 : Fs) (home : FsPath) (p : FsPath)
    (hh : env.home = some home)
    (hip : installPathOf env fs0 = some p)
    (habs : pathExists fs0 p = false)
    (htd1 : ¬ p <+: env.tmpBase ++ ["proton_extract"])
    (htd2 : ¬ env.tmpBase ++ ["proton_extract"] <+: p) :
    (∀ (fsx : Fs) (content : List (FsPath × Bool)) (e : FsEntry),
        e ∈ unpackFs fsx (env.tmpBase ++ ["proton_extract"]) content →
        e ∈ fsx ∨ env.tmpBase ++ ["proton_extract"] <+: e.path) ∧
    ((runMain env fs0).exitCode ≠ 0 →
        pathExists (runMain env fs0).fs p = false) := by
  refine ⟨?_, ?_⟩
  · intro fsx content e he
    rw [unpackFs] at he
    rcases List.mem_append.mp he with hin | hin
    · exact Or.inl hin
    · right
      obtain ⟨pc, -, rfl⟩ := List.mem_map.mp hin
      exact List.prefix_append _ _
  · cases hbeq : env.euid == 0 with
    | true =>
      simp only [runMain, hbeq, if_true]
      intro _
      exact habs
    | false =>
      cases hmeta : env.meta with
      | netFail =>
        simp [installPathOf, hh, hmeta] at hip
      | parseFail =>
        simp [installPathOf, hh, hmeta] at hip
      | ok rel =>
        cases hfa : findAsset rel.assets (detect_arch env.cpuinfo) with
        | none => simp [installPathOf, hh, hmeta, hfa] at hip
        | some a =>
          cases hdn : deriveName a.browser_download_url with
          | none => simp [installPathOf, hh, hmeta, hfa, hdn] at hip
          | some name =>
            simp only [installPathOf, hh, hmeta, hfa, hdn, Option.map_some',
              Option.some.injEq] at hip
            have hp := hip
            have hndp : ¬ p <+: resolveInstallDir fs0 home := by
              rw [Eq.symm hp]
              intro hcon
              have := hcon.length_le
              simp only [List.length_append, List.length_cons, List.length_nil] at this
              omega
            have hnp : pathExists (createDirAll fs0 (resolveInstallDir fs0 home)) p = false := by
              rw [pathExists_createDirAll_of_not_pfx fs0 hndp]
              exact habs
            have hskip : pathExists (createDirAll fs0 (resolveInstallDir fs0 home))
                (resolveInstallDir fs0 home ++ [name]) = false := by
              rw [hp]
              exact hnp
            have hnp2 : pathExists (recreateScratch
                (createDirAll fs0 (resolveInstallDir fs0 home))
                (env.tmpBase ++ ["proton_extract"])
                (env.removeOk (env.tmpBase ++ ["proton_extract"]))) p = false := by
              cases hrm : env.removeOk (env.tmpBase ++ ["proton_extract"]) with
              | true =>
                rw [recreateScratch, if_pos rfl,
                  pathExists_createDirAll_of_not_pfx _ htd1, Bool.eq_false_iff]
                intro hc
                have hup := pathExists_removeDirAll_le _ _ _ hc
                rw [hnp] at hup
                cases hup
              | false =>
                rw [recreateScratch, if_neg (by simp),
                  pathExists_createDirAll_of_not_pfx _ htd1]
                exact hnp
            have hnp3 : ∀ content, pathExists (unpackFs (recreateScratch
                (createDirAll fs0 (resolveInstallDir fs0 home))
                (env.tmpBase ++ ["proton_extract"])
                (env.removeOk (env.tmpBase ++ ["proton_extract"])))
                (env.tmpBase ++ ["proton_extract"]) content) p = false := by
              intro content
              rw [pathExists_unpackFs_of_not_under _ content htd2]
              exact hnp2
            simp only [runMain, hbeq, Bool.false_eq_true, if_false, hh, hmeta, hfa, hdn,
              hskip]
            split
            · intro _
              exact hnp
            · split
              · intro _
                exact hnp3 _
              · split
                · intro _
                  exact hnp3 _
                · split
                  · intro _
                    exact hnp3 _
                  · intro hne
                    exact absurd rfl hne

/-- Concrete environment for the C1 witness: the archive extraction is
interrupted after writing a partial entry into the scratch area. -/
def c1env : Env :=
  ⟨1, some ["h"], none, ["tmp"],
   MetaRes.ok ⟨"v2", [⟨"r/proton-cachyos-2.0-x86_64.tar.xz"⟩]⟩,
   true, ArchiveRes.failed [(["proton-cachyos-2.0-x86_64", "half"], false)],
   true, fun _ => true⟩

/-- Witness for C1: after an interrupted extraction the install root
holds no entry at the target name. -/
theorem no_partial_install_witness :
    pathExists (runMain c1env []).fs
      ["h", ".steam", "root", "compatibilitytools.d", "proton-cachyos-2.0-x86_64"] = false :=
  (no_partial_install c1env [] ["h"]
      ["h", ".steam", "root", "compatibilitytools.d", "proton-cachyos-2.0-x86_64"]
      rfl (by decide) (by decide) (by decide) (by decide)).2 (by decide)
